import Mathlib

/-!
Shallow embedding of the treemap layout engine of `src/app.py`
(`TreemapVisualizer.calculate_layout` and its inner `split_rectangle`,
lines 185-247), together with proofs about it.

Modelling conventions:
* Python floats are modelled as exact rationals `ℚ`; the numeric literals
  `0.3` and `0.7` of the balance band become `3/10` and `7/10`.
* A Python function that can raise an exception is modelled as returning
  `Option`: `none` means "an exception is raised", `some r` means "returns
  `r` normally".
* The inner recursion of `split_rectangle` is by well-founded descent on the
  sublist length; it is rendered with an explicit `fuel` argument so it
  computes by kernel reduction.  `calculate_layout` supplies
  `fuel = values.length`, which is always sufficient (each recursive call
  strictly shortens the sublist).
* `list.sort` in Python is a stable sort; it is modelled by
  `List.insertionSort`, which is also stable, with the same comparison key.
-/

/-- An entry of `indexed_values`: the pair `(i, v)` built by
`[(i, v) for i, v in enumerate(values)]` in `calculate_layout`. -/
structure Item where
  idx : Nat
  val : ℚ
deriving DecidableEq, Repr

/-- A rectangle dict appended to `rectangles` by `split_rectangle`:
`{'index': …, 'x': …, 'y': …, 'width': …, 'height': …, 'value': …}`. -/
structure Rect where
  index : Nat
  x : ℚ
  y : ℚ
  width : ℚ
  height : ℚ
  value : ℚ
deriving DecidableEq, Repr

/-- Python's `enumerate`, specialised to the use in `calculate_layout`:
`enumerate i vs` pairs the elements of `vs` with indices `i, i+1, …`. -/
def enumerate : Nat → List ℚ → List Item
  | _, [] => []
  | i, v :: vs => ⟨i, v⟩ :: enumerate (i + 1) vs

/-- The expression `sum(item[1] for item in items)` (line 213). -/
def sumVals (items : List Item) : ℚ :=
  (items.map Item.val).sum

/-- The balance-band test `0.3 <= ratio <= 0.7` of line 224. -/
def inBand (r : ℚ) : Prop :=
  3/10 ≤ r ∧ r ≤ 7/10

instance (r : ℚ) : Decidable (inBand r) := by
  unfold inBand; infer_instance

/-- The scan loop of lines 220-227: walk the values accumulating `cumsum`;
at the first position whose cumulative ratio lies in the band, return that
ratio together with the split index `i + 1`.  `none` means the loop ran to
completion without a `break`, sending control to the `for`-`else` fallback
(lines 228-230).  It is called on the first `len(items) - 1` values with
`cumsum = 0` and `i = 0`. -/
def scanSplit (totalVal : ℚ) : List ℚ → ℚ → Nat → Option (ℚ × Nat)
  | [], _, _ => none
  | v :: rest, cumsum, i =>
    let c := cumsum + v
    let r := c / totalVal
    if inBand r then some (r, i + 1)
    else scanSplit totalVal rest c (i + 1)

/-- The inner recursive function `split_rectangle` (lines 200-241), with the
rectangles it appends returned in append order, and `none` for "raises an
exception".  The `for`-`else` fallback branch (lines 228-230) always raises
in the source: `sum(items[:split_idx][1] for item in items[:split_idx])` is
an `IndexError` when `split_idx = 1` and a `TypeError` (summing tuples from
the start value `0`) when `split_idx ≥ 2`; hence the `none` in the
`scanSplit … = none` case.  The dead `else: split_idx = 1` of line 232 is
unreachable (the branch requires `len(items) ≥ 2`) and is omitted. -/
def split_rectangle (fuel : Nat) (items : List Item) (x y w h : ℚ)
    (horizontal : Bool) : Option (List Rect) :=
  match fuel with
  | 0 => none
  | fuel + 1 =>
    match items with
    | [it] => some [⟨it.idx, x, y, w, h, it.val⟩]
    | [] => some []
    | _ :: _ :: _ =>
      let totalVal := sumVals items
      if totalVal = 0 then some []
      else
        match scanSplit totalVal ((items.map Item.val).take (items.length - 1)) 0 0 with
        | none => none
        | some (bestRatio, splitIdx) =>
          if horizontal then
            match split_rectangle fuel (items.take splitIdx) x y (w * bestRatio) h false with
            | none => none
            | some r1 =>
              match split_rectangle fuel (items.drop splitIdx)
                  (x + w * bestRatio) y (w * (1 - bestRatio)) h false with
              | none => none
              | some r2 => some (r1 ++ r2)
          else
            match split_rectangle fuel (items.take splitIdx) x y w (h * bestRatio) true with
            | none => none
            | some r1 =>
              match split_rectangle fuel (items.drop splitIdx)
                  x (y + h * bestRatio) w (h * (1 - bestRatio)) true with
              | none => none
              | some r2 => some (r1 ++ r2)

/-- The stable descending sort by value of line 196:
`indexed_values.sort(key=lambda x: x[1], reverse=True)`. -/
def sortDescByVal (l : List Item) : List Item :=
  List.insertionSort (fun a b => b.val ≤ a.val) l

/-- The stable ascending sort by original index of line 246:
`rectangles.sort(key=lambda x: x['index'])`. -/
def sortByIndex (l : List Rect) : List Rect :=
  List.insertionSort (fun a b => a.index ≤ b.index) l

/-- `TreemapVisualizer.calculate_layout` (lines 185-247).  `none` models "the
call raises an exception"; `some rs` models a normal return of `rs`. -/
def calculate_layout (values : List ℚ) (width height : ℚ) : Option (List Rect) :=
  match values with
  | [] => some []
  | _ =>
    let total := values.sum
    if total = 0 then some []
    else
      let indexed_values := sortDescByVal (enumerate 0 values)
      match split_rectangle values.length indexed_values 0 0 width height true with
      | none => none
      | some rects => some (sortByIndex rects)

/-- The `(index, value)` content of a rectangle, for relating the emitted
rectangles back to the items they came from. -/
def Rect.toItem (r : Rect) : Item :=
  ⟨r.index, r.value⟩

/-! ### Characterisation of the scan loop -/

theorem scanSplit_some_spec (t : ℚ) (l : List ℚ) :
    ∀ (c : ℚ) (i : Nat) (r : ℚ) (k : Nat),
    scanSplit t l c i = some (r, k) →
    i < k ∧ k - i ≤ l.length ∧ r = (c + (l.take (k - i)).sum) / t ∧ inBand r ∧
    ∀ j, i < j → j < k → ¬ inBand ((c + (l.take (j - i)).sum) / t) := by
  induction l with
  | nil => intro c i r k hs; simp [scanSplit] at hs
  | cons v rest ih =>
    intro c i r k hs
    simp only [scanSplit] at hs
    by_cases hb : inBand ((c + v) / t)
    · rw [if_pos hb] at hs
      simp only [Option.some.injEq, Prod.mk.injEq] at hs
      obtain ⟨hr, hk⟩ := hs
      refine ⟨by omega, by simp; omega, ?_, hr ▸ hb, ?_⟩
      · have hki : k - i = 1 := by omega
        rw [hki]
        simp [hr]
      · intro j hj1 hj2; omega
    · rw [if_neg hb] at hs
      obtain ⟨h1, h2, h3, h4, h5⟩ := ih (c + v) (i + 1) r k hs
      have hki : k - i = (k - (i + 1)) + 1 := by omega
      refine ⟨by omega, by simp; omega, ?_, h4, ?_⟩
      · rw [hki, List.take_succ_cons, List.sum_cons, ← add_assoc]
        exact h3
      · intro j hj1 hj2
        by_cases hji : j = i + 1
        · subst hji
          simpa using hb
        · have hji2 : j - i = (j - (i + 1)) + 1 := by omega
          rw [hji2, List.take_succ_cons, List.sum_cons, ← add_assoc]
          exact h5 j (by omega) hj2

theorem scanSplit_none_spec (t : ℚ) (l : List ℚ) :
    ∀ (c : ℚ) (i : Nat),
    scanSplit t l c i = none →
    ∀ j, 1 ≤ j → j ≤ l.length → ¬ inBand ((c + (l.take j).sum) / t) := by
  induction l with
  | nil => intro c i _ j hj1 hj2; simp at hj2; omega
  | cons v rest ih =>
    intro c i hs
    simp only [scanSplit] at hs
    by_cases hb : inBand ((c + v) / t)
    · rw [if_pos hb] at hs; exact absurd hs (by simp)
    · rw [if_neg hb] at hs
      intro j hj1 hj2
      by_cases hj : j = 1
      · subst hj; simpa using hb
      · have hj2' : j = (j - 1) + 1 := by omega
        rw [hj2', List.take_succ_cons, List.sum_cons, ← add_assoc]
        exact ih (c + v) (i + 1) hs (j - 1) (by omega) (by simp at hj2 ⊢; omega)

/-! ### Bookkeeping lemmas about `enumerate` and sums -/

theorem enumerate_length : ∀ (i : Nat) (vs : List ℚ), (enumerate i vs).length = vs.length
  | _, [] => rfl
  | i, _ :: vs => by simp [enumerate, enumerate_length (i + 1) vs]

theorem enumerate_map_val : ∀ (i : Nat) (vs : List ℚ), (enumerate i vs).map Item.val = vs
  | _, [] => rfl
  | i, v :: vs => by simp [enumerate, enumerate_map_val (i + 1) vs]

theorem mem_enumerate : ∀ (i : Nat) (vs : List ℚ) (it : Item), it ∈ enumerate i vs →
    i ≤ it.idx ∧ it.idx - i < vs.length ∧ it.val = vs.getD (it.idx - i) 0 := by
  intro i vs
  induction vs generalizing i with
  | nil => intro it h; simp [enumerate] at h
  | cons v rest ih =>
    intro it h
    simp only [enumerate, List.mem_cons] at h
    rcases h with h | h
    · subst h; simp
    · obtain ⟨h1, h2, h3⟩ := ih (i + 1) it h
      have hd : it.idx - i = (it.idx - (i + 1)) + 1 := by omega
      refine ⟨by omega, by simp; omega, ?_⟩
      rw [hd, List.getD_cons_succ]
      exact h3

theorem enumerate_mem_of_lt : ∀ (i : Nat) (vs : List ℚ) (j : Nat), j < vs.length →
    (⟨i + j, vs.getD j 0⟩ : Item) ∈ enumerate i vs := by
  intro i vs
  induction vs generalizing i with
  | nil => intro j h; simp at h
  | cons v rest ih =>
    intro j h
    match j with
    | 0 => simp [enumerate]
    | j + 1 =>
      have := ih (i + 1) j (by simp at h; omega)
      simp only [enumerate, List.mem_cons]
      right
      have harith : i + 1 + j = i + (j + 1) := by omega
      rw [← harith]
      simpa using this

theorem sumVals_take_add_drop (items : List Item) (k : Nat) :
    sumVals (items.take k) + sumVals (items.drop k) = sumVals items := by
  simp only [sumVals, List.map_take, List.map_drop]
  exact List.sum_take_add_sum_drop _ _

theorem sumVals_take_of_scan_take (items : List Item) (k : Nat)
    (hk : k ≤ items.length - 1) :
    ((((items.map Item.val).take (items.length - 1)).take k).sum : ℚ)
      = sumVals (items.take k) := by
  rw [List.take_take, min_eq_left hk, sumVals, List.map_take]

/-- Cancellation of the nonzero split ratio in the area bookkeeping. -/
theorem cancel_ratio {A T v P q : ℚ} (hq : q ≠ 0) (h : A * (q * T) = v * (q * P)) :
    A * T = v * P := by
  have h2 : q * (A * T) = q * (v * P) := by linear_combination h
  exact mul_left_cancel₀ hq h2

/-! ### The main invariant of the recursive splitter -/

theorem split_rectangle_invariant :
    ∀ (fuel : Nat) (items : List Item) (x y w h : ℚ) (horiz : Bool) (rects : List Rect),
    sumVals items ≠ 0 →
    split_rectangle fuel items x y w h horiz = some rects →
    rects.map Rect.toItem = items ∧
    ∀ r ∈ rects, r.width * r.height * sumVals items = r.value * (w * h) := by
  intro fuel
  induction fuel with
  | zero => intro items x y w h horiz rects _ hs; simp [split_rectangle] at hs
  | succ f ih =>
    intro items x y w h horiz rects hne hs
    rcases items with _ | ⟨a, _ | ⟨b, rest⟩⟩
    · exact absurd (by simp [sumVals]) hne
    · simp only [split_rectangle, Option.some.injEq] at hs
      subst hs
      refine ⟨by simp [Rect.toItem], ?_⟩
      intro r hr
      simp only [List.mem_singleton] at hr
      subst hr
      simp only [sumVals, List.map_cons, List.map_nil, List.sum_cons, List.sum_nil]
      ring
    · simp only [split_rectangle, if_neg hne] at hs
      rcases hscan : scanSplit (sumVals (a :: b :: rest))
          (((a :: b :: rest).map Item.val).take ((a :: b :: rest).length - 1)) 0 0 with
        _ | ⟨ratio, k⟩
      · rw [hscan] at hs; cases hs
      rw [hscan] at hs
      obtain ⟨hk0, hkle, hratio, hband, -⟩ :=
        scanSplit_some_spec _ _ _ _ _ _ hscan
      simp only [Nat.sub_zero] at hratio
      have hklen : k ≤ (a :: b :: rest).length - 1 := by
        simpa using hkle
      rw [zero_add, sumVals_take_of_scan_take _ _ hklen] at hratio
      have hratio_ne : ratio ≠ 0 := by
        have : (0 : ℚ) < 3/10 := by norm_num
        exact ne_of_gt (lt_of_lt_of_le this hband.1)
      have h1mr : (1 : ℚ) - ratio ≠ 0 := by
        have : ratio ≤ 7/10 := hband.2
        have : (0 : ℚ) < 1 - ratio := by linarith
        exact ne_of_gt this
      have hS1T : sumVals ((a :: b :: rest).take k) = ratio * sumVals (a :: b :: rest) := by
        rw [hratio]
        field_simp
      have htd := sumVals_take_add_drop (a :: b :: rest) k
      have hS2T : sumVals ((a :: b :: rest).drop k)
          = (1 - ratio) * sumVals (a :: b :: rest) := by
        linear_combination htd - hS1T
      have hS1ne : sumVals ((a :: b :: rest).take k) ≠ 0 := by
        rw [hS1T]; exact mul_ne_zero hratio_ne hne
      have hS2ne : sumVals ((a :: b :: rest).drop k) ≠ 0 := by
        rw [hS2T]; exact mul_ne_zero h1mr hne
      cases horiz with
      | true =>
        simp only [eq_self_iff_true, if_true] at hs
        rcases h1 : split_rectangle f ((a :: b :: rest).take k) x y (w * ratio) h false with
          _ | r1
        · rw [h1] at hs; cases hs
        rw [h1] at hs
        rcases h2 : split_rectangle f ((a :: b :: rest).drop k)
            (x + w * ratio) y (w * (1 - ratio)) h false with _ | r2
        · rw [h2] at hs; cases hs
        rw [h2] at hs
        simp only [Option.some.injEq] at hs
        subst hs
        obtain ⟨hm1, ha1⟩ := ih _ _ _ _ _ _ _ hS1ne h1
        obtain ⟨hm2, ha2⟩ := ih _ _ _ _ _ _ _ hS2ne h2
        refine ⟨by rw [List.map_append, hm1, hm2, List.take_append_drop], ?_⟩
        intro r hr
        rcases List.mem_append.mp hr with hr1 | hr2
        · have hA := ha1 r hr1
          rw [hS1T] at hA
          exact cancel_ratio hratio_ne (by linear_combination hA)
        · have hA := ha2 r hr2
          rw [hS2T] at hA
          exact cancel_ratio h1mr (by linear_combination hA)
      | false =>
        simp only [Bool.false_eq_true, if_false] at hs
        rcases h1 : split_rectangle f ((a :: b :: rest).take k) x y w (h * ratio) true with
          _ | r1
        · rw [h1] at hs; cases hs
        rw [h1] at hs
        rcases h2 : split_rectangle f ((a :: b :: rest).drop k)
            x (y + h * ratio) w (h * (1 - ratio)) true with _ | r2
        · rw [h2] at hs; cases hs
        rw [h2] at hs
        simp only [Option.some.injEq] at hs
        subst hs
        obtain ⟨hm1, ha1⟩ := ih _ _ _ _ _ _ _ hS1ne h1
        obtain ⟨hm2, ha2⟩ := ih _ _ _ _ _ _ _ hS2ne h2
        refine ⟨by rw [List.map_append, hm1, hm2, List.take_append_drop], ?_⟩
        intro r hr
        rcases List.mem_append.mp hr with hr1 | hr2
        · have hA := ha1 r hr1
          rw [hS1T] at hA
          exact cancel_ratio hratio_ne (by linear_combination hA)
        · have hA := ha2 r hr2
          rw [hS2T] at hA
          exact cancel_ratio h1mr (by linear_combination hA)

/-! ### From the splitter invariant to `calculate_layout` -/

theorem sortDescByVal_perm (l : List Item) : (sortDescByVal l).Perm l :=
  List.perm_insertionSort _ l

theorem sortByIndex_perm (l : List Rect) : (sortByIndex l).Perm l :=
  List.perm_insertionSort _ l

theorem sumVals_sortDescByVal_enumerate (vs : List ℚ) :
    sumVals (sortDescByVal (enumerate 0 vs)) = vs.sum := by
  have hperm := (sortDescByVal_perm (enumerate 0 vs)).map Item.val
  rw [sumVals, hperm.sum_eq, enumerate_map_val]

theorem calculate_layout_some_spec (values : List ℚ) (width height : ℚ)
    (rects : List Rect)
    (hne : values.sum ≠ 0)
    (hret : calculate_layout values width height = some rects) :
    ∃ rs : List Rect,
      rects = sortByIndex rs ∧
      rs.map Rect.toItem = sortDescByVal (enumerate 0 values) ∧
      ∀ r ∈ rs, r.width * r.height * values.sum = r.value * (width * height) := by
  rcases values with _ | ⟨v, vs⟩
  · exact absurd rfl hne
  · simp only [calculate_layout, if_neg hne] at hret
    rcases hsplit : split_rectangle (v :: vs).length
        (sortDescByVal (enumerate 0 (v :: vs))) 0 0 width height true with _ | rs
    · rw [hsplit] at hret; cases hret
    · rw [hsplit] at hret
      simp only [Option.some.injEq] at hret
      have hsum : sumVals (sortDescByVal (enumerate 0 (v :: vs))) ≠ 0 := by
        rw [sumVals_sortDescByVal_enumerate]; exact hne
      obtain ⟨hmap, harea⟩ := split_rectangle_invariant _ _ _ _ _ _ _ _ hsum hsplit
      refine ⟨rs, hret.symm, hmap, ?_⟩
      intro r hr
      have := harea r hr
      rwa [sumVals_sortDescByVal_enumerate] at this

/-- C5: for every input with total weight > 0 on which `calculate_layout`
returns normally, each returned rectangle's area fraction equals its item's
weight fraction — `width_r * height_r * total = weight_(index_r) * (W * H)`
exactly over `ℚ` (hence within any positive tolerance such as `1e-6`), the
carried `value` is that weight, and every item index `i < n` has a
rectangle. -/
theorem c5_area_proportional (values : List ℚ) (width height : ℚ)
    (rects : List Rect)
    (hpos : 0 < values.sum)
    (hret : calculate_layout values width height = some rects) :
    (∀ r ∈ rects, r.value = values.getD r.index 0 ∧ r.index < values.length ∧
        r.width * r.height * values.sum = values.getD r.index 0 * (width * height)) ∧
    (∀ i, i < values.length → ∃ r ∈ rects, r.index = i) := by
  obtain ⟨rs, hrects, hmap, harea⟩ :=
    calculate_layout_some_spec values width height rects (ne_of_gt hpos) hret
  have hperm : rects.Perm rs := hrects ▸ sortByIndex_perm rs
  constructor
  · intro r hr
    have hrs : r ∈ rs := hperm.mem_iff.mp hr
    have hit : Rect.toItem r ∈ sortDescByVal (enumerate 0 values) := by
      rw [← hmap]; exact List.mem_map_of_mem Rect.toItem hrs
    have hitenum : Rect.toItem r ∈ enumerate 0 values :=
      (sortDescByVal_perm (enumerate 0 values)).mem_iff.mp hit
    obtain ⟨-, hlt, hval⟩ := mem_enumerate 0 values (Rect.toItem r) hitenum
    simp only [Rect.toItem, Nat.sub_zero] at hlt hval
    refine ⟨hval, hlt, ?_⟩
    rw [← hval]
    exact harea r hrs
  · intro i hi
    have hmem : (⟨i, values.getD i 0⟩ : Item) ∈ enumerate 0 values := by
      have := enumerate_mem_of_lt 0 values i hi
      simpa using this
    have hsorted : (⟨i, values.getD i 0⟩ : Item) ∈ sortDescByVal (enumerate 0 values) :=
      (sortDescByVal_perm (enumerate 0 values)).mem_iff.mpr hmem
    rw [← hmap] at hsorted
    obtain ⟨r, hrs, hri⟩ := List.mem_map.mp hsorted
    refine ⟨r, hperm.mem_iff.mpr hrs, ?_⟩
    have := congrArg Item.idx hri
    simpa [Rect.toItem] using this

/-- Witness for C5 at the concrete input `values = [2, 3]`, `width = height = 1`:
the hypotheses hold and the theorem's conclusion is obtained by applying it. -/
theorem c5_area_proportional_witness :
    0 < ([2, 3] : List ℚ).sum ∧
    calculate_layout [2, 3] 1 1 =
      some [⟨0, 3/5, 0, 2/5, 1, 2⟩, ⟨1, 0, 0, 3/5, 1, 3⟩] ∧
    ((∀ r ∈ [(⟨0, 3/5, 0, 2/5, 1, 2⟩ : Rect), ⟨1, 0, 0, 3/5, 1, 3⟩],
        r.value = ([2, 3] : List ℚ).getD r.index 0 ∧ r.index < ([2, 3] : List ℚ).length ∧
        r.width * r.height * ([2, 3] : List ℚ).sum
          = ([2, 3] : List ℚ).getD r.index 0 * (1 * 1)) ∧
    (∀ i, i < ([2, 3] : List ℚ).length →
        ∃ r ∈ [(⟨0, 3/5, 0, 2/5, 1, 2⟩ : Rect), ⟨1, 0, 0, 3/5, 1, 3⟩], r.index = i)) :=
  ⟨by norm_num,
   by norm_num [calculate_layout, sortDescByVal, sortByIndex, enumerate, split_rectangle,
     scanSplit, sumVals, inBand, List.insertionSort, List.orderedInsert],
   c5_area_proportional [2, 3] 1 1 _ (by norm_num)
     (by norm_num [calculate_layout, sortDescByVal, sortByIndex, enumerate, split_rectangle,
       scanSplit, sumVals, inBand, List.insertionSort, List.orderedInsert])⟩

/-! ### Termination: any sufficient fuel computes the same result -/

theorem split_rectangle_fuel_irrel :
    ∀ (f g : Nat) (items : List Item) (x y w h : ℚ) (b : Bool),
    1 ≤ items.length → items.length ≤ f → items.length ≤ g →
    split_rectangle f items x y w h b = split_rectangle g items x y w h b := by
  intro f
  induction f with
  | zero => intro g items x y w h b h1 h2 _; omega
  | succ f ihf =>
    intro g items x y w h b h1 h2 h3
    cases g with
    | zero => omega
    | succ g =>
      rcases items with _ | ⟨a, _ | ⟨a2, rest⟩⟩
      · simp at h1
      · rfl
      · simp only [split_rectangle]
        by_cases h0 : sumVals (a :: a2 :: rest) = 0
        · rw [if_pos h0, if_pos h0]
        · rw [if_neg h0, if_neg h0]
          rcases hscan : scanSplit (sumVals (a :: a2 :: rest))
              (((a :: a2 :: rest).map Item.val).take ((a :: a2 :: rest).length - 1)) 0 0 with
            _ | ⟨ratio, k⟩
          · rfl
          · obtain ⟨hk0, hkle, -, -, -⟩ := scanSplit_some_spec _ _ _ _ _ _ hscan
            have hklen : k ≤ (a :: a2 :: rest).length - 1 := by simpa using hkle
            have hlt : 1 ≤ ((a :: a2 :: rest).take k).length ∧
                ((a :: a2 :: rest).take k).length ≤ f ∧
                ((a :: a2 :: rest).take k).length ≤ g := by
              simp only [List.length_take, List.length_cons] at *
              omega
            have hld : 1 ≤ ((a :: a2 :: rest).drop k).length ∧
                ((a :: a2 :: rest).drop k).length ≤ f ∧
                ((a :: a2 :: rest).drop k).length ≤ g := by
              simp only [List.length_drop, List.length_cons] at *
              omega
            dsimp only
            rw [ihf g ((a :: a2 :: rest).take k) x y (w * ratio) h false
                hlt.1 hlt.2.1 hlt.2.2,
              ihf g ((a :: a2 :: rest).drop k) (x + w * ratio) y (w * (1 - ratio)) h false
                hld.1 hld.2.1 hld.2.2,
              ihf g ((a :: a2 :: rest).take k) x y w (h * ratio) true
                hlt.1 hlt.2.1 hlt.2.2,
              ihf g ((a :: a2 :: rest).drop k) x (y + h * ratio) w (h * (1 - ratio)) true
                hld.1 hld.2.1 hld.2.2]

/-! ### Closed-form behaviour on two-item inputs -/

theorem enumerate_pair (a b : ℚ) : enumerate 0 [a, b] = [⟨0, a⟩, ⟨1, b⟩] := by
  norm_num [enumerate]

theorem sortDescByVal_pair (a b : ℚ) :
    sortDescByVal [⟨0, a⟩, ⟨1, b⟩] =
      if b ≤ a then [⟨0, a⟩, ⟨1, b⟩] else [⟨1, b⟩, ⟨0, a⟩] := by
  by_cases hord : b ≤ a <;>
    simp [sortDescByVal, List.insertionSort, List.orderedInsert, hord]

theorem split_rectangle_pair (i j : Nat) (p q : ℚ) (hpq : p + q ≠ 0) :
    split_rectangle 2 [⟨i, p⟩, ⟨j, q⟩] 0 0 1 1 true =
      if inBand (p / (p + q)) then
        some [⟨i, 0, 0, p / (p + q), 1, p⟩,
              ⟨j, p / (p + q), 0, 1 - p / (p + q), 1, q⟩]
      else none := by
  by_cases hband : inBand (p / (p + q)) <;>
    simp [split_rectangle, scanSplit, sumVals, hband, hpq]

/-- C10: for a two-element input `[a, b]` with `a > 0` and `b > 0`,
`calculate_layout` returns normally — with two rectangles — exactly when the
larger weight's share `max a b / (a + b)` is at most `0.7` (the share is
always at least `0.5`, hence in the balance band); otherwise the fallback
branch is reached and the call raises. -/
theorem c10_two_item_return_iff_band (a b : ℚ) (ha : 0 < a) (hb : 0 < b) :
    (∃ r1 r2 : Rect, calculate_layout [a, b] 1 1 = some [r1, r2]) ↔
      max a b / (a + b) ≤ 7/10 := by
  have hab0 : (0 : ℚ) < a + b := by linarith
  have hne : a + b ≠ 0 := ne_of_gt hab0
  by_cases hord : b ≤ a
  · have hmax : max a b = a := max_eq_left hord
    have h3 : (3 : ℚ)/10 ≤ a / (a + b) := by
      rw [le_div_iff₀ hab0]; linarith
    have hlay : calculate_layout [a, b] 1 1 =
        match split_rectangle 2 [⟨0, a⟩, ⟨1, b⟩] 0 0 1 1 true with
        | none => none
        | some rects => some (sortByIndex rects) := by
      norm_num [calculate_layout, hne, enumerate_pair, sortDescByVal_pair, hord]
    rw [split_rectangle_pair 0 1 a b hne] at hlay
    by_cases hband : inBand (a / (a + b))
    · rw [if_pos hband] at hlay
      have hsort : sortByIndex [⟨0, 0, 0, a / (a + b), 1, a⟩,
          ⟨1, a / (a + b), 0, 1 - a / (a + b), 1, b⟩] =
          [⟨0, 0, 0, a / (a + b), 1, a⟩, ⟨1, a / (a + b), 0, 1 - a / (a + b), 1, b⟩] := by
        norm_num [sortByIndex, List.insertionSort, List.orderedInsert]
      refine iff_of_true ⟨⟨0, 0, 0, a / (a + b), 1, a⟩,
        ⟨1, a / (a + b), 0, 1 - a / (a + b), 1, b⟩, ?_⟩ (by rw [hmax]; exact hband.2)
      rw [hlay]
      dsimp only
      rw [hsort]
    · rw [if_neg hband] at hlay
      refine iff_of_false ?_ ?_
      · rintro ⟨r1, r2, hcontra⟩
        rw [hlay] at hcontra
        cases hcontra
      · intro hle
        rw [hmax] at hle
        exact hband ⟨h3, hle⟩
  · have hord2 : a ≤ b := le_of_not_le hord
    have hmax : max a b = b := max_eq_right hord2
    have h3 : (3 : ℚ)/10 ≤ b / (a + b) := by
      rw [le_div_iff₀ hab0]; linarith
    have hlay : calculate_layout [a, b] 1 1 =
        match split_rectangle 2 [⟨1, b⟩, ⟨0, a⟩] 0 0 1 1 true with
        | none => none
        | some rects => some (sortByIndex rects) := by
      norm_num [calculate_layout, hne, enumerate_pair, sortDescByVal_pair, hord]
    have hne2 : b + a ≠ 0 := by rw [add_comm]; exact hne
    rw [split_rectangle_pair 1 0 b a hne2] at hlay
    rw [add_comm b a] at hlay
    by_cases hband : inBand (b / (a + b))
    · rw [if_pos hband] at hlay
      have hsort : sortByIndex [⟨1, 0, 0, b / (a + b), 1, b⟩,
          ⟨0, b / (a + b), 0, 1 - b / (a + b), 1, a⟩] =
          [⟨0, b / (a + b), 0, 1 - b / (a + b), 1, a⟩, ⟨1, 0, 0, b / (a + b), 1, b⟩] := by
        norm_num [sortByIndex, List.insertionSort, List.orderedInsert]
      refine iff_of_true ⟨⟨0, b / (a + b), 0, 1 - b / (a + b), 1, a⟩,
        ⟨1, 0, 0, b / (a + b), 1, b⟩, ?_⟩ (by rw [hmax]; exact hband.2)
      rw [hlay]
      dsimp only
      rw [hsort]
    · rw [if_neg hband] at hlay
      refine iff_of_false ?_ ?_
      · rintro ⟨r1, r2, hcontra⟩
        rw [hlay] at hcontra
        cases hcontra
      · intro hle
        rw [hmax] at hle
        exact hband ⟨h3, hle⟩

/-- Witness for C10 at `a = 2`, `b = 3`: both hypotheses hold, and the
conclusion follows by applying the theorem there. -/
theorem c10_two_item_return_iff_band_witness :
    (0 : ℚ) < 2 ∧ (0 : ℚ) < 3 ∧
    ((∃ r1 r2 : Rect, calculate_layout [2, 3] 1 1 = some [r1, r2]) ↔
      max (2 : ℚ) 3 / (2 + 3) ≤ 7/10) :=
  ⟨by norm_num, by norm_num,
   c10_two_item_return_iff_band 2 3 (by norm_num) (by norm_num)⟩

/-- C6: in the recursive case (≥ 2 items, nonzero sublist total), the split
point chosen is the first one, scanning the sublist in order and
accumulating weight, whose cumulative weight ratio lies within
`[3/10, 7/10]` of the sublist total, and `split_rectangle` then divides the
region at exactly that cumulative ratio, recursing on the two halves. -/
theorem c6_first_band_split (items : List Item) (x y w h r : ℚ) (k f : Nat)
    (hlen : 2 ≤ items.length)
    (hne : sumVals items ≠ 0)
    (hscan : scanSplit (sumVals items)
      ((items.map Item.val).take (items.length - 1)) 0 0 = some (r, k)) :
    (1 ≤ k ∧ k ≤ items.length - 1
      ∧ r = sumVals (items.take k) / sumVals items
      ∧ inBand r
      ∧ ∀ j, 1 ≤ j → j < k → ¬ inBand (sumVals (items.take j) / sumVals items))
    ∧ split_rectangle (f + 1) items x y w h true =
        Option.bind (split_rectangle f (items.take k) x y (w * r) h false) (fun r1 =>
          Option.map (fun r2 => r1 ++ r2)
            (split_rectangle f (items.drop k)
              (x + w * r) y (w * (1 - r)) h false)) := by
  obtain ⟨hk0, hkle, hr0, hband, hmin0⟩ := scanSplit_some_spec _ _ _ _ _ _ hscan
  have hklen : k ≤ items.length - 1 := by simpa using hkle
  rw [Nat.sub_zero, zero_add, sumVals_take_of_scan_take _ _ hklen] at hr0
  constructor
  · refine ⟨by omega, hklen, hr0, hband, ?_⟩
    intro j hj1 hjk
    have hj := hmin0 j (by omega) hjk
    rwa [Nat.sub_zero, zero_add, sumVals_take_of_scan_take _ _ (by omega)] at hj
  · rcases items with _ | ⟨a, _ | ⟨b2, rest⟩⟩
    · simp at hlen
    · simp at hlen
    · simp only [split_rectangle, if_neg hne]
      rw [hscan]
      dsimp only
      rw [if_pos trivial]
      rcases h1 : split_rectangle f ((a :: b2 :: rest).take k) x y (w * r) h false with
        _ | r1
      · rfl
      · rcases h2 : split_rectangle f ((a :: b2 :: rest).drop k)
            (x + w * r) y (w * (1 - r)) h false with _ | r2 <;> rfl

/-- Witness for C6 at `items = [⟨0,3⟩, ⟨1,2⟩]`, unit region, `f = 1`: the
scan picks the first (and only) candidate, ratio `3/5`, index `1`. -/
theorem c6_first_band_split_witness :
    (2 ≤ ([⟨0, 3⟩, ⟨1, 2⟩] : List Item).length) ∧
    sumVals [⟨0, 3⟩, ⟨1, 2⟩] ≠ 0 ∧
    scanSplit (sumVals [⟨0, 3⟩, ⟨1, 2⟩])
      (([⟨0, 3⟩, ⟨1, 2⟩].map Item.val).take (([⟨0, 3⟩, ⟨1, 2⟩] : List Item).length - 1)) 0 0
      = some (3/5, 1) ∧
    ((1 ≤ 1 ∧ 1 ≤ ([⟨0, 3⟩, ⟨1, 2⟩] : List Item).length - 1
      ∧ (3/5 : ℚ) = sumVals (([⟨0, 3⟩, ⟨1, 2⟩] : List Item).take 1) / sumVals [⟨0, 3⟩, ⟨1, 2⟩]
      ∧ inBand (3/5)
      ∧ ∀ j, 1 ≤ j → j < 1 →
          ¬ inBand (sumVals (([⟨0, 3⟩, ⟨1, 2⟩] : List Item).take j) / sumVals [⟨0, 3⟩, ⟨1, 2⟩]))
    ∧ split_rectangle 2 [⟨0, 3⟩, ⟨1, 2⟩] 0 0 1 1 true =
        Option.bind (split_rectangle 1 (([⟨0, 3⟩, ⟨1, 2⟩] : List Item).take 1)
            0 0 (1 * (3/5)) 1 false) (fun r1 =>
          Option.map (fun r2 => r1 ++ r2)
            (split_rectangle 1 (([⟨0, 3⟩, ⟨1, 2⟩] : List Item).drop 1)
              (0 + 1 * (3/5)) 0 (1 * (1 - 3/5)) 1 false))) :=
  ⟨by norm_num, by norm_num [sumVals], by norm_num [scanSplit, sumVals, inBand],
   c6_first_band_split [⟨0, 3⟩, ⟨1, 2⟩] 0 0 1 1 (3/5) 1 1 (by norm_num)
     (by norm_num [sumVals]) (by norm_num [scanSplit, sumVals, inBand])⟩

/-- C9: the recursion of `split_rectangle` is well-founded: for a sublist of
length ≥ 2, a split index found by the scan lies in `[1, len-1]`, so both
recursive calls receive strictly shorter sublists; the count-midpoint
fallback index `len / 2` also lies in `[1, len-1]`; and consequently the
result is independent of the fuel bound once it reaches the sublist length —
the modelled recursion always terminates within depth `len`. -/
theorem c9_split_recursion_wellfounded (items : List Item) (t r : ℚ) (k : Nat)
    (x y w h : ℚ) (b : Bool)
    (hlen : 2 ≤ items.length)
    (hscan : scanSplit t ((items.map Item.val).take (items.length - 1)) 0 0
      = some (r, k)) :
    (1 ≤ k ∧ k ≤ items.length - 1
      ∧ (items.take k).length < items.length
      ∧ (items.drop k).length < items.length)
    ∧ (1 ≤ items.length / 2 ∧ items.length / 2 ≤ items.length - 1)
    ∧ ∀ f g, items.length ≤ f → items.length ≤ g →
        split_rectangle f items x y w h b = split_rectangle g items x y w h b := by
  obtain ⟨hk0, hkle, -, -, -⟩ := scanSplit_some_spec _ _ _ _ _ _ hscan
  have hklen : k ≤ items.length - 1 := by simpa using hkle
  refine ⟨⟨by omega, hklen, ?_, ?_⟩, ⟨by omega, by omega⟩, ?_⟩
  · simp only [List.length_take]; omega
  · simp only [List.length_drop]; omega
  · intro f g hf hg
    exact split_rectangle_fuel_irrel f g items x y w h b (by omega) hf hg

/-- Witness for C9 at `items = [⟨0,3⟩, ⟨1,2⟩]`, `t = 5`, split `(3/5, 1)`. -/
theorem c9_split_recursion_wellfounded_witness :
    (2 ≤ ([⟨0, 3⟩, ⟨1, 2⟩] : List Item).length) ∧
    scanSplit 5 (([⟨0, 3⟩, ⟨1, 2⟩].map Item.val).take
        (([⟨0, 3⟩, ⟨1, 2⟩] : List Item).length - 1)) 0 0 = some (3/5, 1) ∧
    ((1 ≤ 1 ∧ 1 ≤ ([⟨0, 3⟩, ⟨1, 2⟩] : List Item).length - 1
      ∧ (([⟨0, 3⟩, ⟨1, 2⟩] : List Item).take 1).length < ([⟨0, 3⟩, ⟨1, 2⟩] : List Item).length
      ∧ (([⟨0, 3⟩, ⟨1, 2⟩] : List Item).drop 1).length < ([⟨0, 3⟩, ⟨1, 2⟩] : List Item).length)
    ∧ (1 ≤ ([⟨0, 3⟩, ⟨1, 2⟩] : List Item).length / 2
      ∧ ([⟨0, 3⟩, ⟨1, 2⟩] : List Item).length / 2 ≤ ([⟨0, 3⟩, ⟨1, 2⟩] : List Item).length - 1)
    ∧ ∀ f g, ([⟨0, 3⟩, ⟨1, 2⟩] : List Item).length ≤ f →
        ([⟨0, 3⟩, ⟨1, 2⟩] : List Item).length ≤ g →
        split_rectangle f [⟨0, 3⟩, ⟨1, 2⟩] 0 0 1 1 true
          = split_rectangle g [⟨0, 3⟩, ⟨1, 2⟩] 0 0 1 1 true) :=
  ⟨by norm_num, by norm_num [scanSplit, inBand],
   c9_split_recursion_wellfounded [⟨0, 3⟩, ⟨1, 2⟩] 5 (3/5) 1 0 0 1 1 true (by norm_num)
     (by norm_num [scanSplit, inBand])⟩

/-- C1 (code bug): contrary to the claim that `calculate_layout` raises no
exception on any weight sequence, the count-based fallback branch always
raises.  On `[10, 1]` the only candidate ratio is `10/11 > 7/10`, the scan
misses the band, and line 230's `sum(items[:split_idx][1] for item in
items[:split_idx])` raises `IndexError` (`split_idx = 1`); the model
returns `none` (= exception). -/
theorem c1_fallback_raises : calculate_layout [10, 1] 1 1 = none := by
  norm_num [calculate_layout, sortDescByVal, enumerate, split_rectangle, scanSplit,
    sumVals, inBand, List.insertionSort, List.orderedInsert]

/-- C2 (counterexample): the claimed `layout([-1, -2]) = []` is false on the
code.  Only a total of exactly 0 is special-cased (line 191 `total == 0`);
with total `-3` the first cumulative ratio is `(-1)/(-3) = 1/3`, inside the
band, and two rectangles are returned. -/
theorem c2_negative_total_counterexample :
    calculate_layout [-1, -2] 1 1 =
      some [⟨0, 0, 0, 1/3, 1, -1⟩, ⟨1, 1/3, 0, 2/3, 1, -2⟩] ∧
    calculate_layout [-1, -2] 1 1 ≠ some [] := by
  have h : calculate_layout [-1, -2] 1 1 =
      some [⟨0, 0, 0, 1/3, 1, -1⟩, ⟨1, 1/3, 0, 2/3, 1, -2⟩] := by
    norm_num [calculate_layout, sortDescByVal, sortByIndex, enumerate, split_rectangle,
      scanSplit, sumVals, inBand, List.insertionSort, List.orderedInsert]
  exact ⟨h, by rw [h]; simp⟩

/-- C2 (amended): the empty input, and any input whose total weight is
exactly 0 (such as `[0, 0, 0]`), yield the empty layout; inputs with
negative total (such as `[-1, -2]`) are not special-cased and do not
return the empty layout. -/
theorem c2_zero_total_empty (values : List ℚ) (width height : ℚ)
    (hsum : values.sum = 0) :
    calculate_layout values width height = some [] := by
  rcases values with _ | ⟨v, vs⟩
  · rfl
  · simp only [calculate_layout, if_pos hsum]

/-- Witness for the amended C2 at `values = [0, 0, 0]`. -/
theorem c2_zero_total_empty_witness :
    ([0, 0, 0] : List ℚ).sum = 0 ∧ calculate_layout [0, 0, 0] 1 1 = some [] :=
  ⟨by norm_num, c2_zero_total_empty [0, 0, 0] 1 1 (by norm_num)⟩

/-- C3 (code bug): the claim promises `n` rectangles for every input of
`n ≥ 1` weights with positive total, but on `[1, 10]` (total `11 > 0`,
`n = 2`) the descending order is `[10, 1]`, the scan misses the band
(`10/11 > 7/10`), and the fallback raises; the model returns `none`
instead of two rectangles. -/
theorem c3_positive_total_raises : calculate_layout [1, 10] 1 1 = none := by
  norm_num [calculate_layout, sortDescByVal, enumerate, split_rectangle, scanSplit,
    sumVals, inBand, List.insertionSort, List.orderedInsert]

/-- C4 (code bug): the claimed fallback behaviour — split at `len // 2`
clamped into `[1, len-1]` with the true cumulative ratio of the first half —
never happens: on `[4, 1]` the scan misses the band (`4/5 > 7/10`), the
fallback computes `split_idx = 1` but the ratio recomputation of line 230
raises before any region division; the model returns `none`. -/
theorem c4_fallback_ratio_raises : calculate_layout [4, 1] 1 1 = none := by
  norm_num [calculate_layout, sortDescByVal, enumerate, split_rectangle, scanSplit,
    sumVals, inBand, List.insertionSort, List.orderedInsert]

/-- C7 (code bug): the claim's concrete example `layout([5, 1, 9, 3])` does
not return rectangles with indices `[0, 1, 2, 3]`: after two in-band splits
the sublist `[⟨3,3⟩, ⟨1,1⟩]` has ratio `3/4 > 7/10`, the fallback raises,
and the whole call raises; the model returns `none`. -/
theorem c7_order_example_raises : calculate_layout [5, 1, 9, 3] 1 1 = none := by
  norm_num [calculate_layout, sortDescByVal, enumerate, split_rectangle, scanSplit,
    sumVals, inBand, List.insertionSort, List.orderedInsert]

/-- C8: for every single-item input with positive weight and every container
size, `calculate_layout` emits exactly one rectangle covering the full
container, tagged with that item's original index 0 and its weight:
`calculate_layout [v] w h = some [⟨0, 0, 0, w, h, v⟩]` whenever `0 < v`
(concretely, `layout([10], width = 2, height = 3)` is the rectangle
`x = 0`, `y = 0`, `width = 2`, `height = 3`). -/
theorem c8_single_item_full_region (v w h : ℚ) (hv : 0 < v) :
    calculate_layout [v] w h = some [⟨0, 0, 0, w, h, v⟩] := by
  have hne : v ≠ 0 := ne_of_gt hv
  norm_num [calculate_layout, sortDescByVal, sortByIndex, enumerate, split_rectangle,
    scanSplit, sumVals, List.insertionSort, List.orderedInsert, hne]

/-- Witness for C8 at the claim's concrete instance `v = 10`, container
`2 × 3`. -/
theorem c8_single_item_full_region_witness :
    (0 : ℚ) < 10 ∧ calculate_layout [10] 2 3 = some [⟨0, 0, 0, 2, 3, 10⟩] :=
  ⟨by norm_num, c8_single_item_full_region 10 2 3 (by norm_num)⟩
